import Mathlib

/-!
Verification of the fromager dependency-graph scheduler specification.

The build-node and scheduler component (`fromager/dependency_graph.py`) is
modelled from the specification, since only its tests ship in this tree;
`fromager/requirements.py` (ResolvedRequirement) is embedded from its source.
-/

namespace Fromager

/-- Modelled from the spec: a structured version identifier with a
well-defined total ordering; the scenarios only use two-component
versions such as `1.0`, so a version is a pair of naturals ordered
lexicographically, with `0.0` the minimum representable version. -/
structure Version where
  major : Nat
  minor : Nat
deriving DecidableEq, Repr

/-- Strict lexicographic order on versions. -/
def Version.ltB (v w : Version) : Bool :=
  decide (v.major < w.major) || (decide (v.major = w.major) && decide (v.minor < w.minor))

/-- Lexicographic comparison of character lists by code point, the
standard string ordering. -/
def strLtAux : List Char → List Char → Bool
  | [], [] => false
  | [], _ :: _ => true
  | _ :: _, [] => false
  | a :: as, b :: bs =>
    if a.toNat < b.toNat then true
    else if b.toNat < a.toNat then false
    else strLtAux as bs

/-- Strict lexicographic string ordering by code point. -/
def strLt (a b : String) : Bool :=
  strLtAux a.data b.data

/-- Modelled from the spec: a Build Node (`DependencyNode`) carries a
canonicalized name, a version, a download origin and a pre-built flag;
the latter two are informational only. -/
structure DependencyNode where
  canonicalized_name : String
  version : Version
  download_url : String := ""
  pre_built : Bool := false
deriving DecidableEq, Repr

/-- The identity pair (name, version) of a node. -/
def DependencyNode.nkey (n : DependencyNode) : String × Version :=
  (n.canonicalized_name, n.version)

/-- Modelled from the spec: node equality compares exactly the pair
(name, version). -/
def DependencyNode.eqB (a b : DependencyNode) : Bool :=
  decide (a.canonicalized_name = b.canonicalized_name) && decide (a.version = b.version)

/-- Modelled from the spec: the hash of a node is derived solely from the
identity pair (name, version). -/
def DependencyNode.hashKey (n : DependencyNode) : String × Version :=
  (n.canonicalized_name, n.version)

/-- Modelled from the spec: strict node ordering compares name first,
then version. -/
def DependencyNode.ltB (a b : DependencyNode) : Bool :=
  strLt a.canonicalized_name b.canonicalized_name ||
    (decide (a.canonicalized_name = b.canonicalized_name) && Version.ltB a.version b.version)

/-- A Python value a node may be compared against: either another node or a
value of an unrelated type (modelled by its textual form). -/
inductive PyValue where
  | node (n : DependencyNode)
  | other (repr : String)
deriving DecidableEq

/-- Modelled from the spec: comparing a node against a value checks the
type first and never signals equality for an unrelated type. -/
def DependencyNode.eqValueB (a : DependencyNode) : PyValue → Bool
  | .node b => a.eqB b
  | .other _ => false

/-- Modelled from the spec: a Dependency Graph maps each node to the
collection of nodes it requires to be completed first. -/
abbrev DepGraph := List (DependencyNode × List DependencyNode)

/-- Prerequisites of a node: the collection bound to it in the graph,
empty when the node carries no binding. -/
def prereqsOf (g : DepGraph) (n : DependencyNode) : List DependencyNode :=
  match g.find? (fun p => decide (p.1 = n)) with
  | some p => p.2
  | none => []

/-- All nodes of the graph: the keys together with every prerequisite member. -/
def nodesOf (g : DepGraph) : List DependencyNode :=
  (g.map Prod.fst ++ g.flatMap Prod.snd).dedup

/-- Modelled from the spec: the nodes that appear inside some other
node's prerequisite collection. -/
def dependencyNodes (g : DepGraph) : List DependencyNode :=
  (g.flatMap Prod.snd).dedup

/-- Modelled from the spec: the nodes whose prerequisites are all in
`fin` and which are not themselves in `fin` — the ready frontier for
`static_batches` (with `fin` the scheduled set) and the available set
for `get_available` (with `fin` the completed set). -/
def availableNodes (g : DepGraph) (fin : List DependencyNode) : List DependencyNode :=
  (nodesOf g).filter (fun n => decide (n ∉ fin ∧ ∀ p ∈ prereqsOf g n, p ∈ fin))

/-- The least element of a list under the strict node ordering. -/
def minNodeBy : List DependencyNode → Option DependencyNode
  | [] => none
  | h :: t => some (t.foldl (fun acc x => if DependencyNode.ltB x acc then x else acc) h)

/-- Modelled from the spec: one round of in-degree elimination — keep
removing every node all of whose prerequisites are removed. -/
def kahnGo (g : DepGraph) : Nat → List DependencyNode → List DependencyNode
  | 0, removed => removed
  | fuel+1, removed =>
    let ready := availableNodes g removed
    if ready.isEmpty then removed else kahnGo g fuel (removed ++ ready)

/-- The nodes never eliminated by in-degree elimination: empty exactly
when the graph is acyclic, and otherwise the set of nodes involved in or
blocked behind a cycle. -/
def kahnResidual (g : DepGraph) : List DependencyNode :=
  (nodesOf g).filter (fun n => decide (n ∉ kahnGo g (nodesOf g).length []))

/-- One edge of the requirement relation: `a` requires `b`. -/
def requiresStep (g : DepGraph) (a b : DependencyNode) : Prop :=
  b ∈ prereqsOf g a

/-- The graph contains a cycle: some node requires itself transitively. -/
def HasCycle (g : DepGraph) : Prop :=
  ∃ n, Relation.TransGen (requiresStep g) n n

/-- Modelled from the spec: the static batch plan. Repeatedly compute the
ready frontier, split it into non-exclusive and exclusive members, yield
the non-exclusive members as one batch when there are any, and otherwise
yield the least exclusive member as a singleton batch. -/
def batchesGo (g : DepGraph) (excl : List DependencyNode) :
    Nat → List DependencyNode → List (List DependencyNode)
  | 0, _ => []
  | fuel+1, scheduled =>
    let fr := availableNodes g scheduled
    let r := fr.filter (fun n => decide (n ∉ excl))
    if r.isEmpty then
      match minNodeBy (fr.filter (fun n => decide (n ∈ excl))) with
      | none => []
      | some m => [m] :: batchesGo g excl fuel (scheduled ++ [m])
    else r :: batchesGo g excl fuel (scheduled ++ r)

/-- Modelled from the spec: `static_batches()` as a whole-plan list. -/
def staticBatchesList (g : DepGraph) (excl : List DependencyNode) :
    List (List DependencyNode) :=
  batchesGo g excl (nodesOf g).length []

/-- Incremental drain that always completes the least available node,
as in the test scenario. -/
def drainGo (g : DepGraph) : Nat → List DependencyNode → List DependencyNode
  | 0, _ => []
  | fuel+1, doneL =>
    match minNodeBy (availableNodes g doneL) with
    | none => []
    | some m => m :: drainGo g fuel (doneL ++ [m])

/-- Full least-first drain of a graph. -/
def drainLeast (g : DepGraph) : List DependencyNode :=
  drainGo g (nodesOf g).length []

/-- Modelled from the spec: the sorter's state machine phases; `broken`
is the unusable state entered when `prepare()` detects a cycle. -/
inductive Phase where
  | unprepared
  | active
  | broken
deriving DecidableEq, Repr

/-- Modelled from the spec: the error taxonomy of the scheduler. -/
inductive SorterError where
  | stateError
  | cycleError (cycle : List DependencyNode)
deriving DecidableEq, Repr

/-- Modelled from the spec: the Tracking Topological Sorter — a graph
snapshot, the exclusive node set, the completed node set, and the phase. -/
structure TrackingTopologicalSorter where
  graph : DepGraph
  exclusive : List DependencyNode
  doneNodes : List DependencyNode
  phase : Phase
deriving DecidableEq, Repr

/-- Construction from a graph snapshot, with no exclusive nodes. -/
def mkSorter (g : DepGraph) : TrackingTopologicalSorter :=
  ⟨g, [], [], .unprepared⟩

/-- Modelled from the spec: `add(node, exclusive)` — registers the node
(with no prerequisites when absent) and optionally flags it exclusive;
valid only before `prepare()`. -/
def addOp (s : TrackingTopologicalSorter) (n : DependencyNode) (excl : Bool) :
    Except SorterError TrackingTopologicalSorter :=
  if s.phase = .unprepared then
    let g' := if n ∈ s.graph.map Prod.fst then s.graph else s.graph ++ [(n, [])]
    let e' := if excl = true ∧ n ∉ s.exclusive then s.exclusive ++ [n] else s.exclusive
    .ok { s with graph := g', exclusive := e' }
  else .error .stateError

/-- Modelled from the spec: `prepare()` — validates acyclicity and
transitions to ACTIVE, or fails with a cycle error naming the offending
nodes and leaves the sorter unusable; fails with a state error when
called more than once. -/
def prepareOp (s : TrackingTopologicalSorter) :
    Except SorterError Unit × TrackingTopologicalSorter :=
  if s.phase = .unprepared then
    if kahnResidual s.graph = [] then (.ok (), { s with phase := .active })
    else (.error (.cycleError (kahnResidual s.graph)), { s with phase := .broken })
  else (.error .stateError, s)

/-- Modelled from the spec: `get_available()` — returns the current set
of not-yet-done nodes whose prerequisites are all completed, without
mutating the sorter; fails with a state error unless ACTIVE. -/
def getAvailableOp (s : TrackingTopologicalSorter) :
    Except SorterError (List DependencyNode × TrackingTopologicalSorter) :=
  if s.phase = .active then .ok (availableNodes s.graph s.doneNodes, s)
  else .error .stateError

/-- Modelled from the spec: `done(node)` — marks an outstanding node
completed; fails with a state error when the node was never added or is
already done, or when the sorter is not ACTIVE. -/
def doneOp (s : TrackingTopologicalSorter) (n : DependencyNode) :
    Except SorterError TrackingTopologicalSorter :=
  if s.phase = .active then
    if n ∈ nodesOf s.graph ∧ n ∉ s.doneNodes then
      .ok { s with doneNodes := s.doneNodes ++ [n] }
    else .error .stateError
  else .error .stateError

/-- Modelled from the spec: `is_active()` — true while some node remains
uncompleted; valid only at or after ACTIVE. -/
def isActiveOp (s : TrackingTopologicalSorter) : Except SorterError Bool :=
  if s.phase = .active then
    .ok (decide (∃ n ∈ nodesOf s.graph, n ∉ s.doneNodes))
  else .error .stateError

/-- Modelled from the spec: `static_batches()` — the precomputed batch
plan; usable before `prepare()`, but fails once the sorter is unusable. -/
def staticBatchesOp (s : TrackingTopologicalSorter) :
    Except SorterError (List (List DependencyNode)) :=
  if s.phase = .broken then .error .stateError
  else .ok (staticBatchesList s.graph s.exclusive)

/-- A drain protocol trace: each node completed by the caller was in the
available set at the moment of its `done()` call, i.e. the caller marks
done only nodes previously returned as available. -/
def validDrainFromB (g : DepGraph) : List DependencyNode → List DependencyNode → Bool
  | _, [] => true
  | doneL, n :: rest =>
    decide (n ∈ availableNodes g doneL) && validDrainFromB g (doneL ++ [n]) rest

/-- Batches are layered over an initial completed set: each batch member
has all its prerequisites inside the set accumulated strictly before
that batch. -/
def LayeredFrom (g : DepGraph) : List DependencyNode → List (List DependencyNode) → Prop
  | _, [] => True
  | sched, b :: rest =>
    (∀ n ∈ b, ∀ p ∈ prereqsOf g n, p ∈ sched) ∧ LayeredFrom g (sched ++ b) rest

/-- Python-level errors raised by attempted mutation. -/
inductive PyError where
  | frozenInstanceError
  | typeError
deriving DecidableEq, Repr

/-- Modelled from the spec: nodes are immutable once constructed — an
attempted assignment to `canonicalized_name` fails. -/
def DependencyNode.set_canonicalized_name (_ : DependencyNode) (_ : String) :
    Except PyError DependencyNode :=
  .error .frozenInstanceError

/-- Modelled from the spec: an attempted assignment to `version` fails. -/
def DependencyNode.set_version (_ : DependencyNode) (_ : Version) :
    Except PyError DependencyNode :=
  .error .frozenInstanceError

/-- Modelled from the spec: an attempted assignment to `download_url` fails. -/
def DependencyNode.set_download_url (_ : DependencyNode) (_ : String) :
    Except PyError DependencyNode :=
  .error .frozenInstanceError

/-- Modelled from the spec: an attempted assignment to `pre_built` fails. -/
def DependencyNode.set_pre_built (_ : DependencyNode) (_ : Bool) :
    Except PyError DependencyNode :=
  .error .frozenInstanceError

/-- A parsed requirement, as consumed by `ResolvedRequirement.__init__`:
a distribution name, an optional direct-reference URL, extras, a
version-specifier set and an optional environment marker. -/
structure Requirement where
  name : String
  url : Option String
  extras : List String
  specifier : String
  marker : Option String
deriving DecidableEq, Repr

/-- Character-level canonicalization: collapse runs of `-`, `_`, `.` to a
single `-` and lowercase, after `packaging.utils.canonicalize_name`. -/
def canonChars : List Char → Bool → List Char
  | [], _ => []
  | c :: rest, sep =>
    if c = '-' ∨ c = '_' ∨ c = '.' then
      if sep then canonChars rest true else '-' :: canonChars rest true
    else c.toLower :: canonChars rest false

/-- Canonicalized distribution name. -/
def canonicalizeName (s : String) : String :=
  ⟨canonChars s.data false⟩

/-- A requirement resolved to a concrete version (`requirements.py`):
stores the underlying requirement and the resolved version. -/
structure ResolvedRequirement where
  req : Requirement
  version : Version
deriving DecidableEq, Repr

/-- The canonicalized name computed at construction. -/
def ResolvedRequirement.canonical_name (r : ResolvedRequirement) : String :=
  canonicalizeName r.req.name

/-- The `__eq__` of `ResolvedRequirement`: compares the full underlying
requirement together with the resolved version. -/
def ResolvedRequirement.eqB (a b : ResolvedRequirement) : Bool :=
  decide (a.req = b.req) && decide (a.version = b.version)

/-- The `__lt__` of `ResolvedRequirement`: compares only the pair
(canonical_name, version), lexicographically. -/
def ResolvedRequirement.ltB (a b : ResolvedRequirement) : Bool :=
  strLt a.canonical_name b.canonical_name ||
    (decide (a.canonical_name = b.canonical_name) && Version.ltB a.version b.version)

/-- The `name` setter of `ResolvedRequirement` raises `TypeError`. -/
def ResolvedRequirement.set_name (_ : ResolvedRequirement) (_ : String) :
    Except PyError ResolvedRequirement :=
  .error .typeError

/-- The `url` setter of `ResolvedRequirement` raises `TypeError`. -/
def ResolvedRequirement.set_url (_ : ResolvedRequirement) (_ : Option String) :
    Except PyError ResolvedRequirement :=
  .error .typeError

/-- The `extras` setter of `ResolvedRequirement` raises `TypeError`. -/
def ResolvedRequirement.set_extras (_ : ResolvedRequirement) (_ : List String) :
    Except PyError ResolvedRequirement :=
  .error .typeError

/-- The `marker` setter of `ResolvedRequirement` raises `TypeError`. -/
def ResolvedRequirement.set_marker (_ : ResolvedRequirement) (_ : Option String) :
    Except PyError ResolvedRequirement :=
  .error .typeError

/-- Node `a` of the end-to-end test scenario, version 1.0. -/
def exA : DependencyNode := ⟨"a", ⟨1, 0⟩, "", false⟩

/-- Node `b` of the end-to-end test scenario. -/
def exB : DependencyNode := ⟨"b", ⟨1, 0⟩, "", false⟩

/-- Node `c` of the end-to-end test scenario. -/
def exC : DependencyNode := ⟨"c", ⟨1, 0⟩, "", false⟩

/-- Node `d` of the end-to-end test scenario. -/
def exD : DependencyNode := ⟨"d", ⟨1, 0⟩, "", false⟩

/-- Node `e` of the end-to-end test scenario. -/
def exE : DependencyNode := ⟨"e", ⟨1, 0⟩, "", false⟩

/-- Node `f` of the end-to-end test scenario. -/
def exF : DependencyNode := ⟨"f", ⟨1, 0⟩, "", false⟩

/-- The test graph: a requires [b, c]; b requires [c, d]; d requires [e];
f requires [d]. -/
def exG : DepGraph :=
  [(exA, [exB, exC]), (exB, [exC, exD]), (exD, [exE]), (exF, [exD])]

/-- A two-node cyclic graph, for exercising the cycle-error path. -/
def cycG : DepGraph :=
  [(exA, [exB]), (exB, [exA])]

theorem strLtAux_cons_iff (a b : Char) (as bs : List Char) :
    strLtAux (a :: as) (b :: bs) = true ↔
      (a.toNat < b.toNat ∨ (a.toNat = b.toNat ∧ strLtAux as bs = true)) := by
  simp only [strLtAux]
  by_cases h1 : a.toNat < b.toNat
  · simp [h1]
  · by_cases h2 : b.toNat < a.toNat
    · simp only [if_neg h1, if_pos h2]
      constructor
      · intro h
        exact absurd h Bool.false_ne_true
      · intro h
        rcases h with h | ⟨h, _⟩ <;> omega
    · have h3 : ¬ a.toNat < b.toNat ∧ ¬ b.toNat < a.toNat := ⟨h1, h2⟩
      simp only [if_neg h1, if_neg h2]
      constructor
      · intro h
        exact Or.inr ⟨by omega, h⟩
      · intro h
        rcases h with h | ⟨_, h⟩
        · omega
        · exact h

theorem strLtAux_irrefl : ∀ (l : List Char), strLtAux l l = false := by
  intro l
  induction l with
  | nil => rfl
  | cons a as ih =>
    simp only [strLtAux, lt_irrefl, if_neg (lt_irrefl a.toNat)]
    simpa using ih

theorem strLtAux_trans :
    ∀ (as bs cs : List Char), strLtAux as bs = true → strLtAux bs cs = true →
      strLtAux as cs = true := by
  intro as
  induction as with
  | nil =>
    intro bs cs h1 h2
    cases bs with
    | nil => simp [strLtAux] at h1
    | cons b bs =>
      cases cs with
      | nil => simp [strLtAux] at h2
      | cons c cs => simp [strLtAux]
  | cons a as ih =>
    intro bs cs h1 h2
    cases bs with
    | nil => simp [strLtAux] at h1
    | cons b bs =>
      cases cs with
      | nil => simp [strLtAux] at h2
      | cons c cs =>
        rw [strLtAux_cons_iff] at h1 h2 ⊢
        rcases h1 with h1 | ⟨h1, h1'⟩ <;> rcases h2 with h2 | ⟨h2, h2'⟩
        · exact Or.inl (by omega)
        · exact Or.inl (by omega)
        · exact Or.inl (by omega)
        · exact Or.inr ⟨by omega, ih bs cs h1' h2'⟩

theorem strLtAux_eq_of_not :
    ∀ (as bs : List Char), strLtAux as bs = false → strLtAux bs as = false → as = bs := by
  intro as
  induction as with
  | nil =>
    intro bs h1 _
    cases bs with
    | nil => rfl
    | cons b bs => simp [strLtAux] at h1
  | cons a as ih =>
    intro bs h1 h2
    cases bs with
    | nil => simp [strLtAux] at h2
    | cons b bs =>
      rw [Bool.eq_false_iff] at h1 h2
      rw [Ne, strLtAux_cons_iff] at h1 h2
      push_neg at h1 h2
      have heq : a.toNat = b.toNat := by omega
      have ha : a = b := Char.ext (UInt32.ext heq)
      have hrest1 : strLtAux as bs = false := by
        rw [Bool.eq_false_iff]
        exact h1.2 heq
      have hrest2 : strLtAux bs as = false := by
        rw [Bool.eq_false_iff]
        exact h2.2 heq.symm
      rw [ha, ih bs hrest1 hrest2]

theorem strLt_irrefl (s : String) : strLt s s = false :=
  strLtAux_irrefl s.data

theorem strLt_trans {a b c : String} (h1 : strLt a b = true) (h2 : strLt b c = true) :
    strLt a c = true :=
  strLtAux_trans a.data b.data c.data h1 h2

theorem strLt_eq_of_not {a b : String} (h1 : strLt a b = false) (h2 : strLt b a = false) :
    a = b := by
  have hd : a.data = b.data := strLtAux_eq_of_not a.data b.data h1 h2
  cases a
  cases b
  simp_all

theorem Version.ltB_irrefl (v : Version) : Version.ltB v v = false := by
  simp [Version.ltB]

theorem Version.ltB_transitive {u v w : Version} (h1 : Version.ltB u v = true)
    (h2 : Version.ltB v w = true) : Version.ltB u w = true := by
  simp only [Version.ltB, Bool.or_eq_true, Bool.and_eq_true, decide_eq_true_eq] at *
  rcases h1 with h1 | ⟨h1, h1'⟩ <;> rcases h2 with h2 | ⟨h2, h2'⟩
  · exact Or.inl (lt_trans h1 h2)
  · exact Or.inl (h2 ▸ h1)
  · exact Or.inl (h1 ▸ h2)
  · exact Or.inr ⟨h1.trans h2, lt_trans h1' h2'⟩

theorem Version.ltB_total {v w : Version} (h : v ≠ w) :
    Version.ltB v w = true ∨ Version.ltB w v = true := by
  simp only [Version.ltB, Bool.or_eq_true, Bool.and_eq_true, decide_eq_true_eq]
  rcases Nat.lt_trichotomy v.major w.major with hm | hm | hm
  · exact Or.inl (Or.inl hm)
  · rcases Nat.lt_trichotomy v.minor w.minor with hn | hn | hn
    · exact Or.inl (Or.inr ⟨hm, hn⟩)
    · exact absurd (by cases v; cases w; simp_all) h
    · exact Or.inr (Or.inr ⟨hm.symm, hn⟩)
  · exact Or.inr (Or.inl hm)

theorem DependencyNode.ltB_iff {a b : DependencyNode} :
    a.ltB b = true ↔ (strLt a.canonicalized_name b.canonicalized_name = true ∨
      (a.canonicalized_name = b.canonicalized_name ∧ Version.ltB a.version b.version = true)) := by
  simp [DependencyNode.ltB, Bool.or_eq_true, Bool.and_eq_true, decide_eq_true_eq]

theorem DependencyNode.ltB_of_key_eq {a b : DependencyNode} (h : a.nkey = b.nkey) :
    a.ltB b = false := by
  have hn : a.canonicalized_name = b.canonicalized_name := congrArg Prod.fst h
  have hv : a.version = b.version := congrArg Prod.snd h
  rw [Bool.eq_false_iff]
  intro hlt
  rcases DependencyNode.ltB_iff.mp hlt with h1 | ⟨h1, h2⟩
  · rw [hn, strLt_irrefl] at h1; exact Bool.false_ne_true h1
  · rw [hv, Version.ltB_irrefl] at h2; exact Bool.false_ne_true h2

theorem DependencyNode.ltB_trans {a b c : DependencyNode}
    (h1 : a.ltB b = true) (h2 : b.ltB c = true) : a.ltB c = true := by
  rw [DependencyNode.ltB_iff] at *
  rcases h1 with h1 | ⟨h1, h1'⟩ <;> rcases h2 with h2 | ⟨h2, h2'⟩
  · exact Or.inl (strLt_trans h1 h2)
  · exact Or.inl (h2 ▸ h1)
  · exact Or.inl (h1 ▸ h2)
  · exact Or.inr ⟨h1.trans h2, Version.ltB_transitive h1' h2'⟩

theorem DependencyNode.ltB_asymm {a b : DependencyNode}
    (h : a.ltB b = true) : b.ltB a = false := by
  rw [Bool.eq_false_iff]
  intro h2
  have := DependencyNode.ltB_trans h h2
  rw [DependencyNode.ltB_of_key_eq rfl] at this
  exact Bool.false_ne_true this

theorem DependencyNode.ltB_connex {a b : DependencyNode} (h : a.nkey ≠ b.nkey) :
    a.ltB b = true ∨ b.ltB a = true := by
  rw [DependencyNode.ltB_iff, DependencyNode.ltB_iff]
  by_cases hn : a.canonicalized_name = b.canonicalized_name
  · have hv : a.version ≠ b.version := by
      intro hv
      exact h (by simp [DependencyNode.nkey, hn, hv])
    rcases Version.ltB_total hv with h1 | h1
    · exact Or.inl (Or.inr ⟨hn, h1⟩)
    · exact Or.inr (Or.inr ⟨hn.symm, h1⟩)
  · cases hlt : strLt a.canonicalized_name b.canonicalized_name with
    | true => exact Or.inl (Or.inl rfl)
    | false =>
      cases hlt2 : strLt b.canonicalized_name a.canonicalized_name with
      | true => exact Or.inr (Or.inl rfl)
      | false => exact absurd (strLt_eq_of_not hlt hlt2) hn

theorem DependencyNode.key_eq_of_not_ltB {a b : DependencyNode}
    (h1 : a.ltB b = false) (h2 : b.ltB a = false) : a.nkey = b.nkey := by
  by_contra h
  rcases DependencyNode.ltB_connex h with hc | hc
  · rw [h1] at hc; exact Bool.false_ne_true hc
  · rw [h2] at hc; exact Bool.false_ne_true hc

theorem DependencyNode.ltB_key_congr {a a' b b' : DependencyNode}
    (ha : a.nkey = a'.nkey) (hb : b.nkey = b'.nkey) : a.ltB b = a'.ltB b' := by
  have ha1 : a.canonicalized_name = a'.canonicalized_name := congrArg Prod.fst ha
  have ha2 : a.version = a'.version := congrArg Prod.snd ha
  have hb1 : b.canonicalized_name = b'.canonicalized_name := congrArg Prod.fst hb
  have hb2 : b.version = b'.version := congrArg Prod.snd hb
  unfold DependencyNode.ltB
  rw [ha1, ha2, hb1, hb2]

theorem foldlMin_spec (t : List DependencyNode) (acc : DependencyNode) :
    (t.foldl (fun m x => if DependencyNode.ltB x m then x else m) acc = acc ∨
      t.foldl (fun m x => if DependencyNode.ltB x m then x else m) acc ∈ t) ∧
    DependencyNode.ltB acc (t.foldl (fun m x => if DependencyNode.ltB x m then x else m) acc) = false ∧
    ∀ x ∈ t, DependencyNode.ltB x (t.foldl (fun m x => if DependencyNode.ltB x m then x else m) acc) = false := by
  induction t generalizing acc with
  | nil =>
    refine ⟨Or.inl rfl, ?_, by simp⟩
    simpa using DependencyNode.ltB_of_key_eq (a := acc) rfl
  | cons x t ih =>
    simp only [List.foldl_cons]
    by_cases hx : DependencyNode.ltB x acc = true
    · rw [if_pos hx]
      obtain ⟨hmem, hle, hall⟩ := ih x
      refine ⟨?_, ?_, ?_⟩
      · rcases hmem with h | h
        · exact Or.inr (by rw [h]; exact List.mem_cons_self x t)
        · exact Or.inr (List.mem_cons_of_mem x h)
      · rw [Bool.eq_false_iff]
        intro hcontra
        have := DependencyNode.ltB_trans hx hcontra
        rw [hle] at this
        exact Bool.false_ne_true this
      · intro y hy
        rcases List.mem_cons.mp hy with rfl | hy
        · exact hle
        · exact hall y hy
    · rw [if_neg hx]
      obtain ⟨hmem, hle, hall⟩ := ih acc
      refine ⟨?_, hle, ?_⟩
      · rcases hmem with h | h
        · exact Or.inl h
        · exact Or.inr (List.mem_cons_of_mem x h)
      · intro y hy
        rcases List.mem_cons.mp hy with rfl | hy
        · rw [Bool.eq_false_iff]
          intro hcontra
          by_cases hra : DependencyNode.ltB (t.foldl (fun m x => if DependencyNode.ltB x m then x else m) acc) acc = true
          · have := DependencyNode.ltB_trans hcontra hra
            rw [this] at hx
            exact hx rfl
          · have hkey := DependencyNode.key_eq_of_not_ltB
              (Bool.not_eq_true _ ▸ hle) (Bool.eq_false_iff.mpr hra)
            have : DependencyNode.ltB y acc = true := by
              rw [← DependencyNode.ltB_key_congr rfl hkey.symm]
              exact hcontra
            rw [this] at hx
            exact hx rfl
        · exact hall y hy

theorem minNodeBy_eq_none {l : List DependencyNode} : minNodeBy l = none ↔ l = [] := by
  cases l <;> simp [minNodeBy]

theorem minNodeBy_spec {l : List DependencyNode} {m : DependencyNode}
    (h : minNodeBy l = some m) : m ∈ l ∧ ∀ x ∈ l, DependencyNode.ltB x m = false := by
  cases l with
  | nil => simp [minNodeBy] at h
  | cons a t =>
    simp only [minNodeBy, Option.some.injEq] at h
    obtain ⟨hmem, hle, hall⟩ := foldlMin_spec t a
    subst h
    constructor
    · rcases hmem with h | h
      · rw [h]; exact List.mem_cons_self a t
      · exact List.mem_cons_of_mem a h
    · intro x hx
      rcases List.mem_cons.mp hx with rfl | hx
      · exact hle
      · exact hall x hx

theorem nodesOf_nodup (g : DepGraph) : (nodesOf g).Nodup :=
  List.nodup_dedup _

theorem mem_availableNodes {g : DepGraph} {fin : List DependencyNode} {n : DependencyNode} :
    n ∈ availableNodes g fin ↔
      n ∈ nodesOf g ∧ n ∉ fin ∧ ∀ p ∈ prereqsOf g n, p ∈ fin := by
  simp [availableNodes, List.mem_filter]

theorem availableNodes_nodup (g : DepGraph) (fin : List DependencyNode) :
    (availableNodes g fin).Nodup :=
  (nodesOf_nodup g).filter _

theorem prereq_mem_nodesOf {g : DepGraph} {n p : DependencyNode}
    (h : p ∈ prereqsOf g n) : p ∈ nodesOf g := by
  unfold prereqsOf at h
  cases hf : g.find? (fun e => decide (e.1 = n)) with
  | none => rw [hf] at h; simp at h
  | some e =>
    rw [hf] at h
    have he : e ∈ g := List.mem_of_find?_eq_some hf
    unfold nodesOf
    rw [List.mem_dedup, List.mem_append]
    exact Or.inr (List.mem_flatMap.mpr ⟨e, he, h⟩)

theorem haskey_mem_nodesOf {g : DepGraph} {n : DependencyNode}
    (h : prereqsOf g n ≠ []) : n ∈ nodesOf g := by
  unfold prereqsOf at h
  cases hf : g.find? (fun e => decide (e.1 = n)) with
  | none => rw [hf] at h; simp at h
  | some e =>
    have he : e ∈ g := List.mem_of_find?_eq_some hf
    have hkey : e.1 = n := by
      have := List.find?_some hf
      simpa using this
    unfold nodesOf
    rw [List.mem_dedup, List.mem_append]
    exact Or.inl (hkey ▸ List.mem_map_of_mem Prod.fst he)

theorem trapped_hasCycle {g : DepGraph} {U : List DependencyNode} (hne : U ≠ [])
    (hU : ∀ u ∈ U, ∃ p, p ∈ prereqsOf g u ∧ p ∈ U) : HasCycle g := by
  classical
  obtain ⟨u0, hu0⟩ := List.exists_mem_of_ne_nil U hne
  let F : DependencyNode → DependencyNode := fun u =>
    if h : ∃ p, p ∈ prereqsOf g u ∧ p ∈ U then h.choose else u
  have hF : ∀ u ∈ U, F u ∈ prereqsOf g u ∧ F u ∈ U := by
    intro u hu
    have h : ∃ p, p ∈ prereqsOf g u ∧ p ∈ U := hU u hu
    simp only [F, dif_pos h]
    exact h.choose_spec
  have hmem : ∀ k, F^[k] u0 ∈ U := by
    intro k
    induction k with
    | zero => simpa using hu0
    | succ k ih =>
      rw [Function.iterate_succ_apply']
      exact (hF _ ih).2
  have hstep : ∀ k, requiresStep g (F^[k] u0) (F^[k + 1] u0) := by
    intro k
    rw [Function.iterate_succ_apply']
    exact (hF _ (hmem k)).1
  have hchain : ∀ k d, Relation.TransGen (requiresStep g) (F^[k] u0) (F^[k + d + 1] u0) := by
    intro k d
    induction d with
    | zero => exact Relation.TransGen.single (hstep k)
    | succ d ih =>
      have harith : k + (d + 1) + 1 = (k + d + 1) + 1 := by omega
      rw [harith]
      exact Relation.TransGen.tail ih (hstep (k + d + 1))
  obtain ⟨i, j, hij, heq⟩ := Finite.exists_ne_map_eq_of_infinite
    (fun k : ℕ => (⟨F^[k] u0, List.mem_toFinset.mpr (hmem k)⟩ : {x // x ∈ U.toFinset}))
  have heq' : F^[i] u0 = F^[j] u0 := congrArg Subtype.val heq
  rcases Nat.lt_or_ge i j with hlt | hge
  · refine ⟨F^[i] u0, ?_⟩
    have harith : j = i + (j - i - 1) + 1 := by omega
    have hc := hchain i (j - i - 1)
    rw [← harith, ← heq'] at hc
    exact hc
  · have hlt : j < i := lt_of_le_of_ne hge (Ne.symm hij)
    refine ⟨F^[j] u0, ?_⟩
    have harith : i = j + (i - j - 1) + 1 := by omega
    have hc := hchain j (i - j - 1)
    rw [← harith, heq'] at hc
    exact hc

theorem selfloop_step {g : DepGraph} {x : DependencyNode}
    (h : Relation.TransGen (requiresStep g) x x) :
    ∃ p, p ∈ prereqsOf g x ∧ Relation.TransGen (requiresStep g) p p := by
  obtain ⟨y, hy, hr⟩ := Relation.TransGen.head'_iff.mp h
  exact ⟨y, hy, Relation.TransGen.tail' hr hy⟩

theorem kahnGo_selfloop_not_mem {g : DepGraph} :
    ∀ (fuel : Nat) (removed : List DependencyNode),
      (∀ x, Relation.TransGen (requiresStep g) x x → x ∉ removed) →
      ∀ x, Relation.TransGen (requiresStep g) x x → x ∉ kahnGo g fuel removed := by
  intro fuel
  induction fuel with
  | zero => intro removed h x hx; exact h x hx
  | succ fuel ih =>
    intro removed h x hx
    by_cases hready : (availableNodes g removed).isEmpty = true
    · simp only [kahnGo, hready, if_true]
      exact h x hx
    · simp only [kahnGo, hready, if_false]
      apply ih
      · intro y hy
        rw [List.mem_append]
        push_neg
        refine ⟨h y hy, ?_⟩
        intro hyr
        rw [mem_availableNodes] at hyr
        obtain ⟨p, hp, hploop⟩ := selfloop_step hy
        exact h p hploop (hyr.2.2 p hp)
      · exact hx

theorem hasCycle_kahnResidual_ne_nil {g : DepGraph} (h : HasCycle g) :
    kahnResidual g ≠ [] := by
  obtain ⟨n, hn⟩ := h
  have hmemn : n ∈ nodesOf g := by
    obtain ⟨p, hp, _⟩ := selfloop_step hn
    exact haskey_mem_nodesOf (by intro hnil; rw [hnil] at hp; simp at hp)
  have hnot : n ∉ kahnGo g (nodesOf g).length [] :=
    kahnGo_selfloop_not_mem _ _ (by intro x _ hx; simp at hx) n hn
  intro hres
  have hinres : n ∈ kahnResidual g := by
    unfold kahnResidual
    rw [List.mem_filter]
    exact ⟨hmemn, by simpa using hnot⟩
  rw [hres] at hinres
  simp at hinres

theorem acyclic_of_kahnResidual_nil {g : DepGraph} (h : kahnResidual g = []) :
    ¬ HasCycle g :=
  fun hc => hasCycle_kahnResidual_ne_nil hc h

theorem frontier_progress {g : DepGraph} {scheduled : List DependencyNode}
    (hacy : ¬ HasCycle g) (hempty : availableNodes g scheduled = [])
    {n : DependencyNode} (hn : n ∈ nodesOf g) (hns : n ∉ scheduled) : False := by
  apply hacy
  apply trapped_hasCycle (U := (nodesOf g).filter (fun x => decide (x ∉ scheduled)))
  · intro hU
    have hmem : n ∈ (nodesOf g).filter (fun x => decide (x ∉ scheduled)) :=
      List.mem_filter.mpr ⟨hn, by simpa using hns⟩
    rw [hU] at hmem
    simp at hmem
  · intro u hu
    rw [List.mem_filter] at hu
    obtain ⟨hu1, hu2⟩ := hu
    have hu2 : u ∉ scheduled := by simpa using hu2
    have hnav : u ∉ availableNodes g scheduled := by rw [hempty]; simp
    rw [mem_availableNodes] at hnav
    push_neg at hnav
    obtain ⟨p, hp, hps⟩ := hnav hu1 hu2
    exact ⟨p, hp, List.mem_filter.mpr ⟨prereq_mem_nodesOf hp, by simpa using hps⟩⟩

theorem batchesGo_succ_r (g : DepGraph) (excl : List DependencyNode) (fuel : Nat)
    (scheduled : List DependencyNode)
    (h : ((availableNodes g scheduled).filter (fun n => decide (n ∉ excl))).isEmpty = false) :
    batchesGo g excl (fuel + 1) scheduled =
      (availableNodes g scheduled).filter (fun n => decide (n ∉ excl)) ::
        batchesGo g excl fuel
          (scheduled ++ (availableNodes g scheduled).filter (fun n => decide (n ∉ excl))) := by
  have hrw : batchesGo g excl (fuel + 1) scheduled =
      (if ((availableNodes g scheduled).filter (fun n => decide (n ∉ excl))).isEmpty then
        match minNodeBy ((availableNodes g scheduled).filter (fun n => decide (n ∈ excl))) with
        | none => []
        | some m => [m] :: batchesGo g excl fuel (scheduled ++ [m])
      else (availableNodes g scheduled).filter (fun n => decide (n ∉ excl)) ::
        batchesGo g excl fuel
          (scheduled ++ (availableNodes g scheduled).filter (fun n => decide (n ∉ excl)))) := rfl
  rw [hrw, h]
  simp

theorem batchesGo_succ_none (g : DepGraph) (excl : List DependencyNode) (fuel : Nat)
    (scheduled : List DependencyNode)
    (hr : ((availableNodes g scheduled).filter (fun n => decide (n ∉ excl))).isEmpty = true)
    (hmin : minNodeBy ((availableNodes g scheduled).filter (fun n => decide (n ∈ excl))) = none) :
    batchesGo g excl (fuel + 1) scheduled = [] := by
  have hrw : batchesGo g excl (fuel + 1) scheduled =
      (if ((availableNodes g scheduled).filter (fun n => decide (n ∉ excl))).isEmpty then
        match minNodeBy ((availableNodes g scheduled).filter (fun n => decide (n ∈ excl))) with
        | none => []
        | some m => [m] :: batchesGo g excl fuel (scheduled ++ [m])
      else (availableNodes g scheduled).filter (fun n => decide (n ∉ excl)) ::
        batchesGo g excl fuel
          (scheduled ++ (availableNodes g scheduled).filter (fun n => decide (n ∉ excl)))) := rfl
  rw [hrw, hr, hmin]
  rfl

theorem batchesGo_succ_min (g : DepGraph) (excl : List DependencyNode) (fuel : Nat)
    (scheduled : List DependencyNode) (m : DependencyNode)
    (hr : ((availableNodes g scheduled).filter (fun n => decide (n ∉ excl))).isEmpty = true)
    (hmin : minNodeBy ((availableNodes g scheduled).filter (fun n => decide (n ∈ excl))) = some m) :
    batchesGo g excl (fuel + 1) scheduled = [m] :: batchesGo g excl fuel (scheduled ++ [m]) := by
  have hrw : batchesGo g excl (fuel + 1) scheduled =
      (if ((availableNodes g scheduled).filter (fun n => decide (n ∉ excl))).isEmpty then
        match minNodeBy ((availableNodes g scheduled).filter (fun n => decide (n ∈ excl))) with
        | none => []
        | some m => [m] :: batchesGo g excl fuel (scheduled ++ [m])
      else (availableNodes g scheduled).filter (fun n => decide (n ∉ excl)) ::
        batchesGo g excl fuel
          (scheduled ++ (availableNodes g scheduled).filter (fun n => decide (n ∉ excl)))) := rfl
  rw [hrw, hr, hmin]
  rfl

theorem frontier_empty_of_splits_empty {g : DepGraph} {excl scheduled : List DependencyNode}
    (h1 : ((availableNodes g scheduled).filter (fun n => decide (n ∉ excl))).isEmpty = true)
    (h2 : minNodeBy ((availableNodes g scheduled).filter (fun n => decide (n ∈ excl))) = none) :
    availableNodes g scheduled = [] := by
  have h1' : (availableNodes g scheduled).filter (fun n => decide (n ∉ excl)) = [] := by
    simpa using h1
  have h2' : (availableNodes g scheduled).filter (fun n => decide (n ∈ excl)) = [] :=
    minNodeBy_eq_none.mp h2
  by_contra hne
  obtain ⟨x, hx⟩ := List.exists_mem_of_ne_nil _ hne
  by_cases hxe : x ∈ excl
  · have hmem : x ∈ (availableNodes g scheduled).filter (fun n => decide (n ∈ excl)) :=
      List.mem_filter.mpr ⟨hx, by simpa using hxe⟩
    rw [h2'] at hmem
    simp at hmem
  · have hmem : x ∈ (availableNodes g scheduled).filter (fun n => decide (n ∉ excl)) :=
      List.mem_filter.mpr ⟨hx, by simpa using hxe⟩
    rw [h1'] at hmem
    simp at hmem

theorem unscheduled_length_drop (g : DepGraph) (scheduled r : List DependencyNode)
    (hsub : ∀ x ∈ r, x ∈ nodesOf g ∧ x ∉ scheduled) (hne : r ≠ []) :
    ((nodesOf g).filter (fun n => decide (n ∉ scheduled ++ r))).length <
      ((nodesOf g).filter (fun n => decide (n ∉ scheduled))).length := by
  have hcomp : (nodesOf g).filter (fun n => decide (n ∉ scheduled ++ r)) =
      ((nodesOf g).filter (fun n => decide (n ∉ scheduled))).filter
        (fun n => decide (n ∉ r)) := by
    rw [List.filter_filter]
    apply List.filter_congr
    intro x _
    simp [List.mem_append, not_or, Bool.and_comm]
  rw [hcomp, List.length_filter_lt_length_iff_exists]
  obtain ⟨x, hx⟩ := List.exists_mem_of_ne_nil r hne
  exact ⟨x, List.mem_filter.mpr ⟨(hsub x hx).1, by simpa using (hsub x hx).2⟩,
    by simpa using hx⟩

theorem batchesGo_flatten_spec (g : DepGraph) (excl : List DependencyNode) :
    ∀ (fuel : Nat) (scheduled : List DependencyNode),
      (batchesGo g excl fuel scheduled).flatten.Nodup ∧
      ∀ n ∈ (batchesGo g excl fuel scheduled).flatten, n ∈ nodesOf g ∧ n ∉ scheduled := by
  intro fuel
  induction fuel with
  | zero => intro scheduled; simp [batchesGo]
  | succ fuel ih =>
    intro scheduled
    by_cases hre : ((availableNodes g scheduled).filter (fun n => decide (n ∉ excl))).isEmpty = true
    · cases hmin : minNodeBy ((availableNodes g scheduled).filter (fun n => decide (n ∈ excl))) with
      | none => rw [batchesGo_succ_none g excl fuel scheduled hre hmin]; simp
      | some m =>
        rw [batchesGo_succ_min g excl fuel scheduled m hre hmin]
        have hm : m ∈ availableNodes g scheduled :=
          (List.mem_filter.mp (minNodeBy_spec hmin).1).1
        have hmnodes : m ∈ nodesOf g := (mem_availableNodes.mp hm).1
        have hmsched : m ∉ scheduled := (mem_availableNodes.mp hm).2.1
        obtain ⟨ihnd, ihmem⟩ := ih (scheduled ++ [m])
        rw [List.flatten_cons]
        constructor
        · rw [List.nodup_append]
          refine ⟨List.nodup_singleton m, ihnd, ?_⟩
          intro x hx hx2
          rw [List.mem_singleton] at hx
          subst hx
          have hns := (ihmem x hx2).2
          simp [List.mem_append] at hns
        · intro n hn
          rw [List.mem_append] at hn
          rcases hn with hn | hn
          · rw [List.mem_singleton] at hn
            subst hn
            exact ⟨hmnodes, hmsched⟩
          · have hmm := ihmem n hn
            exact ⟨hmm.1, fun hns => hmm.2 (by simp [List.mem_append, hns])⟩
    · rw [Bool.not_eq_true] at hre
      rw [batchesGo_succ_r g excl fuel scheduled hre]
      obtain ⟨ihnd, ihmem⟩ :=
        ih (scheduled ++ (availableNodes g scheduled).filter (fun n => decide (n ∉ excl)))
      have hrsub : ∀ x ∈ (availableNodes g scheduled).filter (fun n => decide (n ∉ excl)),
          x ∈ nodesOf g ∧ x ∉ scheduled := by
        intro x hx
        have hx' : x ∈ availableNodes g scheduled := (List.mem_filter.mp hx).1
        exact ⟨(mem_availableNodes.mp hx').1, (mem_availableNodes.mp hx').2.1⟩
      rw [List.flatten_cons]
      constructor
      · rw [List.nodup_append]
        refine ⟨(availableNodes_nodup g scheduled).filter _, ihnd, ?_⟩
        intro x hx hx2
        have hns := (ihmem x hx2).2
        exact hns (by simp only [List.mem_append]; exact Or.inr hx)
      · intro n hn
        rw [List.mem_append] at hn
        rcases hn with hn | hn
        · exact hrsub n hn
        · have hmm := ihmem n hn
          exact ⟨hmm.1, fun hns => hmm.2 (by simp [List.mem_append, hns])⟩

theorem batchesGo_coverage (g : DepGraph) (excl : List DependencyNode)
    (hacy : ¬ HasCycle g) :
    ∀ (fuel : Nat) (scheduled : List DependencyNode),
      ((nodesOf g).filter (fun n => decide (n ∉ scheduled))).length ≤ fuel →
      ∀ n ∈ nodesOf g, n ∉ scheduled → n ∈ (batchesGo g excl fuel scheduled).flatten := by
  intro fuel
  induction fuel with
  | zero =>
    intro scheduled hlen n hn hns
    exfalso
    have hmem : n ∈ (nodesOf g).filter (fun x => decide (x ∉ scheduled)) :=
      List.mem_filter.mpr ⟨hn, by simpa using hns⟩
    have hpos := List.length_pos_of_mem hmem
    omega
  | succ fuel ih =>
    intro scheduled hlen n hn hns
    by_cases hre : ((availableNodes g scheduled).filter (fun n => decide (n ∉ excl))).isEmpty = true
    · cases hmin : minNodeBy ((availableNodes g scheduled).filter (fun n => decide (n ∈ excl))) with
      | none =>
        exact absurd (frontier_empty_of_splits_empty hre hmin)
          (fun hfr => frontier_progress hacy hfr hn hns)
      | some m =>
        rw [batchesGo_succ_min g excl fuel scheduled m hre hmin, List.flatten_cons]
        rw [List.mem_append]
        by_cases hnm : n = m
        · subst hnm
          exact Or.inl (List.mem_singleton.mpr rfl)
        · have hm : m ∈ availableNodes g scheduled :=
            (List.mem_filter.mp (minNodeBy_spec hmin).1).1

          have hmsub : ∀ x ∈ [m], x ∈ nodesOf g ∧ x ∉ scheduled := by
            intro x hx
            rw [List.mem_singleton] at hx
            subst hx
            exact ⟨(mem_availableNodes.mp hm).1, (mem_availableNodes.mp hm).2.1⟩
          have hdrop := unscheduled_length_drop g scheduled [m] hmsub (by simp)
          refine Or.inr (ih (scheduled ++ [m]) (by omega) n hn ?_)
          simp [List.mem_append, hns, hnm]
    · rw [Bool.not_eq_true] at hre
      rw [batchesGo_succ_r g excl fuel scheduled hre, List.flatten_cons, List.mem_append]
      by_cases hnr : n ∈ (availableNodes g scheduled).filter (fun x => decide (x ∉ excl))
      · exact Or.inl hnr
      · have hrsub : ∀ x ∈ (availableNodes g scheduled).filter (fun x => decide (x ∉ excl)),
            x ∈ nodesOf g ∧ x ∉ scheduled := by
          intro x hx
          have hx' : x ∈ availableNodes g scheduled := (List.mem_filter.mp hx).1
          exact ⟨(mem_availableNodes.mp hx').1, (mem_availableNodes.mp hx').2.1⟩
        have hrne : (availableNodes g scheduled).filter (fun x => decide (x ∉ excl)) ≠ [] := by
          intro hnil
          rw [hnil] at hre
          simp at hre
        have hdrop := unscheduled_length_drop g scheduled _ hrsub hrne
        refine Or.inr (ih _ (by omega) n hn ?_)
        simp only [List.mem_append, not_or]
        exact ⟨hns, hnr⟩

theorem batchesGo_layeredFrom (g : DepGraph) (excl : List DependencyNode) :
    ∀ (fuel : Nat) (scheduled : List DependencyNode),
      LayeredFrom g scheduled (batchesGo g excl fuel scheduled) := by
  intro fuel
  induction fuel with
  | zero => intro scheduled; simp [batchesGo, LayeredFrom]
  | succ fuel ih =>
    intro scheduled
    by_cases hre : ((availableNodes g scheduled).filter (fun n => decide (n ∉ excl))).isEmpty = true
    · cases hmin : minNodeBy ((availableNodes g scheduled).filter (fun n => decide (n ∈ excl))) with
      | none =>
        rw [batchesGo_succ_none g excl fuel scheduled hre hmin]
        simp [LayeredFrom]
      | some m =>
        rw [batchesGo_succ_min g excl fuel scheduled m hre hmin]
        refine ⟨?_, ih (scheduled ++ [m])⟩
        intro n hn p hp
        rw [List.mem_singleton] at hn
        subst hn
        have hm : n ∈ availableNodes g scheduled :=
          (List.mem_filter.mp (minNodeBy_spec hmin).1).1
        exact (mem_availableNodes.mp hm).2.2 p hp
    · rw [Bool.not_eq_true] at hre
      rw [batchesGo_succ_r g excl fuel scheduled hre]
      refine ⟨?_, ih _⟩
      intro n hn p hp
      have hn' : n ∈ availableNodes g scheduled := (List.mem_filter.mp hn).1
      exact (mem_availableNodes.mp hn').2.2 p hp

theorem layeredFrom_get {g : DepGraph} :
    ∀ (bs : List (List DependencyNode)) (sched : List DependencyNode),
      LayeredFrom g sched bs →
      ∀ (i : Nat) (hi : i < bs.length), ∀ n ∈ bs.get ⟨i, hi⟩, ∀ p ∈ prereqsOf g n,
        p ∈ sched ++ (bs.take i).flatten := by
  intro bs
  induction bs with
  | nil => intro sched _ i hi; simp at hi
  | cons b rest ih =>
    intro sched hl i hi n hn p hp
    cases i with
    | zero =>
      simp only [List.take_zero, List.flatten_nil, List.append_nil]
      exact hl.1 n (by simpa using hn) p hp
    | succ i =>
      have hi' : i < rest.length := by simpa using hi
      have := ih (sched ++ b) hl.2 i hi' n (by simpa using hn) p hp
      simpa [List.append_assoc] using this

theorem availableNodes_of_free {g : DepGraph} (hfree : ∀ n, prereqsOf g n = [])
    (sched : List DependencyNode) :
    availableNodes g sched = (nodesOf g).filter (fun n => decide (n ∉ sched)) := by
  unfold availableNodes
  apply List.filter_congr
  intro x _
  simp [hfree]

theorem batchesGo_allexcl (g : DepGraph) (excl : List DependencyNode)
    (hexcl : ∀ n ∈ nodesOf g, n ∈ excl) (hfree : ∀ n, prereqsOf g n = [])
    (hinj : ∀ a b, a ∈ nodesOf g → b ∈ nodesOf g → a.nkey = b.nkey → a = b) :
    ∀ (fuel : Nat) (scheduled : List DependencyNode),
      (∀ b ∈ batchesGo g excl fuel scheduled, ∃ m, b = [m]) ∧
      List.Pairwise (fun a b => DependencyNode.ltB a b = true)
        (batchesGo g excl fuel scheduled).flatten := by
  intro fuel
  induction fuel with
  | zero => intro scheduled; simp [batchesGo]
  | succ fuel ih =>
    intro scheduled
    have hre : ((availableNodes g scheduled).filter (fun n => decide (n ∉ excl))).isEmpty = true := by
      rw [List.isEmpty_iff, List.filter_eq_nil_iff]
      intro a ha
      have hmem : a ∈ nodesOf g := (mem_availableNodes.mp ha).1
      simpa using hexcl a hmem
    cases hmin : minNodeBy ((availableNodes g scheduled).filter (fun n => decide (n ∈ excl))) with
    | none =>
      rw [batchesGo_succ_none g excl fuel scheduled hre hmin]
      simp
    | some m =>
      rw [batchesGo_succ_min g excl fuel scheduled m hre hmin]
      obtain ⟨hmin_mem, hmin_le⟩ := minNodeBy_spec hmin
      have hm : m ∈ availableNodes g scheduled := (List.mem_filter.mp hmin_mem).1
      have hmnodes : m ∈ nodesOf g := (mem_availableNodes.mp hm).1
      obtain ⟨ihsing, ihpw⟩ := ih (scheduled ++ [m])
      constructor
      · intro b hb
        rcases List.mem_cons.mp hb with rfl | hb
        · exact ⟨m, rfl⟩
        · exact ihsing b hb
      · rw [List.flatten_cons]
        have hflat : ([m] ++ (batchesGo g excl fuel (scheduled ++ [m])).flatten) =
            m :: (batchesGo g excl fuel (scheduled ++ [m])).flatten := rfl
        rw [hflat, List.pairwise_cons]
        refine ⟨?_, ihpw⟩
        intro x hx
        have hxspec := (batchesGo_flatten_spec g excl fuel (scheduled ++ [m])).2 x hx
        have hxnodes : x ∈ nodesOf g := hxspec.1
        have hxm : x ≠ m := by
          intro heq
          exact hxspec.2 (by simp [hxspec, List.mem_append, heq])
        have hxsched : x ∉ scheduled := fun hc => hxspec.2 (by simp [List.mem_append, hc])
        have hxE : x ∈ (availableNodes g scheduled).filter (fun n => decide (n ∈ excl)) := by
          rw [List.mem_filter, mem_availableNodes]
          exact ⟨⟨hxnodes, hxsched, by rw [hfree x]; simp⟩, by simpa using hexcl x hxnodes⟩
        have hxmle : DependencyNode.ltB x m = false := hmin_le x hxE
        have hkey : x.nkey ≠ m.nkey := fun hk => hxm (hinj x m hxnodes hmnodes hk)
        rcases DependencyNode.ltB_connex hkey with hc | hc
        · rw [hxmle] at hc
          exact absurd hc (Bool.false_ne_true)
        · exact hc

theorem validDrain_prereqs (g : DepGraph) :
    ∀ (tr doneL : List DependencyNode), validDrainFromB g doneL tr = true →
      ∀ (i : Nat) (hi : i < tr.length), ∀ p ∈ prereqsOf g (tr.get ⟨i, hi⟩),
        p ∈ doneL ++ tr.take i := by
  intro tr
  induction tr with
  | nil => intro doneL _ i hi; simp at hi
  | cons n rest ih =>
    intro doneL htr i hi p hp
    rw [validDrainFromB, Bool.and_eq_true] at htr
    obtain ⟨h1, h2⟩ := htr
    cases i with
    | zero =>
      have hn : n ∈ availableNodes g doneL := of_decide_eq_true h1
      have hpd := (mem_availableNodes.mp hn).2.2 p hp
      simp only [List.take_zero, List.append_nil]
      exact hpd
    | succ i =>
      have hrec := ih (doneL ++ [n]) h2 i (by simpa using hi) p (by simpa using hp)
      simpa [List.append_assoc] using hrec

theorem mem_take_exists_get {α : Type} {l : List α} {i : Nat} {x : α} (h : x ∈ l.take i) :
    ∃ j, ∃ hj : j < l.length, j < i ∧ l.get ⟨j, hj⟩ = x := by
  obtain ⟨j, hj, hget⟩ := List.getElem_of_mem h
  have hlen : (l.take i).length = min i l.length := List.length_take i l
  have hj1 : j < l.length := by omega
  have hj2 : j < i := by omega
  refine ⟨j, hj1, hj2, ?_⟩
  have := List.getElem_take (L := l) (j := i) (i := j) (h := hj)
  rw [List.get_eq_getElem, ← this, hget]

theorem mem_flatten_take_exists {α : Type} {L : List (List α)} {i : Nat} {x : α}
    (h : x ∈ (L.take i).flatten) :
    ∃ j, ∃ hj : j < L.length, j < i ∧ x ∈ L.get ⟨j, hj⟩ := by
  rw [List.mem_flatten] at h
  obtain ⟨l, hl, hx⟩ := h
  obtain ⟨j, hj1, hj2, hget⟩ := mem_take_exists_get hl
  exact ⟨j, hj1, hj2, by rw [hget]; exact hx⟩

theorem batchesGo_excl_singleton (g : DepGraph) (excl : List DependencyNode) :
    ∀ (fuel : Nat) (scheduled : List DependencyNode),
      ∀ b ∈ batchesGo g excl fuel scheduled, ∀ n ∈ b, n ∈ excl → b = [n] := by
  intro fuel
  induction fuel with
  | zero => intro scheduled b hb; simp [batchesGo] at hb
  | succ fuel ih =>
    intro scheduled b hb n hn hne
    by_cases hre : ((availableNodes g scheduled).filter (fun x => decide (x ∉ excl))).isEmpty = true
    · cases hmin : minNodeBy ((availableNodes g scheduled).filter (fun x => decide (x ∈ excl))) with
      | none =>
        rw [batchesGo_succ_none g excl fuel scheduled hre hmin] at hb
        simp at hb
      | some m =>
        rw [batchesGo_succ_min g excl fuel scheduled m hre hmin] at hb
        rcases List.mem_cons.mp hb with rfl | hb
        · rw [List.mem_singleton] at hn
          rw [hn]
        · exact ih (scheduled ++ [m]) b hb n hn hne
    · rw [Bool.not_eq_true] at hre
      rw [batchesGo_succ_r g excl fuel scheduled hre] at hb
      rcases List.mem_cons.mp hb with rfl | hb
      · have := (List.mem_filter.mp hn).2
        simp at this
        exact absurd hne this
      · exact ih _ b hb n hn hne

/-- C1: For every acyclic dependency graph, in any drain of a prepared
sorter by repeated get_available/done calls in which the caller marks
done only nodes previously returned as available, a node is returned as
available only when all its prerequisites are already done, and every
prerequisite of the i-th completed node was completed at a strictly
earlier position — the completion sequence is a valid topological order. -/
theorem drain_topological_order (g : DepGraph) (tr : List DependencyNode)
    (hacy : ¬ HasCycle g) (htr : validDrainFromB g [] tr = true) :
    (∀ (doneL : List DependencyNode) (n : DependencyNode), n ∈ availableNodes g doneL →
      ∀ p ∈ prereqsOf g n, p ∈ doneL) ∧
    (∀ (i : Nat) (hi : i < tr.length), ∀ p ∈ prereqsOf g (tr.get ⟨i, hi⟩),
      ∃ j, ∃ hj : j < tr.length, j < i ∧ tr.get ⟨j, hj⟩ = p) := by
  constructor
  · intro doneL n hn p hp
    exact (mem_availableNodes.mp hn).2.2 p hp
  · intro i hi p hp
    have hmem := validDrain_prereqs g tr [] htr i hi p hp
    rw [List.nil_append] at hmem
    exact mem_take_exists_get hmem

theorem drain_topological_order_witness :
    ∃ j, ∃ hj : j < ([exC, exE, exD, exB, exA, exF] : List DependencyNode).length,
      j < 2 ∧ List.get [exC, exE, exD, exB, exA, exF] ⟨j, hj⟩ = exE :=
  (drain_topological_order exG [exC, exE, exD, exB, exA, exF]
    (acyclic_of_kahnResidual_nil (by decide)) (by decide)).2 2 (by decide) exE (by decide)

/-- C2: For every acyclic dependency graph, the concatenation of the
batches of static_batches() visits every node of the graph exactly once
(it is a permutation of the node set), and every prerequisite of a node
lies in a strictly earlier batch than the node itself. -/
theorem static_batches_topological (g : DepGraph) (excl : List DependencyNode)
    (hacy : ¬ HasCycle g) :
    (staticBatchesList g excl).flatten.Perm (nodesOf g) ∧
    (∀ (i : Nat) (hi : i < (staticBatchesList g excl).length),
      ∀ n ∈ (staticBatchesList g excl).get ⟨i, hi⟩, ∀ p ∈ prereqsOf g n,
        ∃ j, ∃ hj : j < (staticBatchesList g excl).length, j < i ∧
          p ∈ (staticBatchesList g excl).get ⟨j, hj⟩) := by
  obtain ⟨hnd, hmem⟩ := batchesGo_flatten_spec g excl (nodesOf g).length []
  have hcov := batchesGo_coverage g excl hacy (nodesOf g).length []
    (List.length_filter_le _ _)
  constructor
  · apply List.perm_of_nodup_nodup_toFinset_eq hnd (nodesOf_nodup g)
    ext x
    simp only [List.mem_toFinset]
    constructor
    · intro hx
      exact (hmem x hx).1
    · intro hx
      exact hcov x hx (by simp)
  · intro i hi n hn p hp
    have hlay := batchesGo_layeredFrom g excl (nodesOf g).length []
    have hget := layeredFrom_get _ [] hlay i hi n hn p hp
    rw [List.nil_append] at hget
    exact mem_flatten_take_exists hget

theorem static_batches_topological_witness :
    (staticBatchesList exG []).flatten.Perm (nodesOf exG) :=
  (static_batches_topological exG [] (acyclic_of_kahnResidual_nil (by decide))).1

/-- C3: when the ready frontier of static_batches() contains both
exclusive and non-exclusive nodes, the non-exclusive members are yielded
together as the next batch (none of them exclusive) and every exclusive
node is emitted in its own singleton batch, strictly after the first
batch when the initial frontier is mixed; when the frontier consists
only of exclusive nodes, exactly one singleton batch is yielded holding
the least frontier member by node ordering; and an all-exclusive
prerequisite-free graph is emitted as one singleton batch per node in
ascending node order. -/
theorem static_batches_exclusive_policy (g : DepGraph) (excl : List DependencyNode)
    (hacy : ¬ HasCycle g) :
    (∀ (fuel : Nat) (scheduled : List DependencyNode),
      ((availableNodes g scheduled).filter (fun n => decide (n ∉ excl))).isEmpty = false →
      batchesGo g excl (fuel + 1) scheduled =
        (availableNodes g scheduled).filter (fun n => decide (n ∉ excl)) ::
          batchesGo g excl fuel
            (scheduled ++ (availableNodes g scheduled).filter (fun n => decide (n ∉ excl))) ∧
      ∀ x ∈ (availableNodes g scheduled).filter (fun n => decide (n ∉ excl)), x ∉ excl) ∧
    (∀ b ∈ staticBatchesList g excl, ∀ n ∈ b, n ∈ excl → b = [n]) ∧
    (∀ e ∈ nodesOf g, e ∈ excl →
      ∃ j, ∃ hj : j < (staticBatchesList g excl).length,
        (staticBatchesList g excl).get ⟨j, hj⟩ = [e] ∧
        (((availableNodes g []).filter (fun n => decide (n ∉ excl))).isEmpty = false →
          1 ≤ j)) ∧
    (∀ (fuel : Nat) (scheduled : List DependencyNode) (m : DependencyNode),
      ((availableNodes g scheduled).filter (fun n => decide (n ∉ excl))).isEmpty = true →
      minNodeBy ((availableNodes g scheduled).filter (fun n => decide (n ∈ excl))) = some m →
      batchesGo g excl (fuel + 1) scheduled =
        [m] :: batchesGo g excl fuel (scheduled ++ [m]) ∧
      m ∈ availableNodes g scheduled ∧ m ∈ excl ∧
      ∀ x ∈ availableNodes g scheduled, DependencyNode.ltB x m = false) ∧
    (∀ (g2 : DepGraph) (excl2 : List DependencyNode),
      (∀ n ∈ nodesOf g2, n ∈ excl2) → (∀ n, prereqsOf g2 n = []) →
      (∀ a b, a ∈ nodesOf g2 → b ∈ nodesOf g2 → a.nkey = b.nkey → a = b) →
      (∀ b ∈ staticBatchesList g2 excl2, ∃ m, b = [m]) ∧
      List.Pairwise (fun a b => DependencyNode.ltB a b = true)
        (staticBatchesList g2 excl2).flatten ∧
      (staticBatchesList g2 excl2).flatten.Perm (nodesOf g2)) := by
  refine ⟨?_, ?_, ?_, ?_, ?_⟩
  · intro fuel scheduled h
    refine ⟨batchesGo_succ_r g excl fuel scheduled h, ?_⟩
    intro x hx
    simpa using (List.mem_filter.mp hx).2
  · intro b hb n hn hne
    exact batchesGo_excl_singleton g excl (nodesOf g).length [] b hb n hn hne
  · intro e he hex
    simp only [staticBatchesList]
    have hcov := batchesGo_coverage g excl hacy (nodesOf g).length []
      (List.length_filter_le _ _) e he (by simp)
    obtain ⟨b, hb, heb⟩ := List.mem_flatten.mp hcov
    have hsing : b = [e] :=
      batchesGo_excl_singleton g excl (nodesOf g).length [] b hb e heb hex
    obtain ⟨j, hj, hget⟩ := List.getElem_of_mem hb
    refine ⟨j, hj, ?_, ?_⟩
    · rw [List.get_eq_getElem, hget, hsing]
    · intro hmix
      by_contra hj0
      have hj0 : j = 0 := by omega
      subst hj0
      have hnn : nodesOf g ≠ [] := fun hh => by rw [hh] at he; simp at he
      obtain ⟨k, hk⟩ : ∃ k, (nodesOf g).length = k + 1 := by
        cases hlen : (nodesOf g).length with
        | zero => rw [List.length_eq_zero] at hlen; exact absurd hlen hnn
        | succ k => exact ⟨k, rfl⟩
      have hfirst : batchesGo g excl (nodesOf g).length [] =
          (availableNodes g []).filter (fun n => decide (n ∉ excl)) ::
            batchesGo g excl k ([] ++ (availableNodes g []).filter (fun n => decide (n ∉ excl))) := by
        rw [hk]
        exact batchesGo_succ_r g excl k [] hmix
      have hget? : (batchesGo g excl (nodesOf g).length [])[0]? = some b := by
        rw [List.getElem?_eq_getElem hj, hget]
      rw [hfirst] at hget?
      simp only [List.getElem?_cons_zero, Option.some.injEq] at hget?
      have hemem : e ∈ (availableNodes g []).filter (fun n => decide (n ∉ excl)) := by
        rw [hget?, hsing]
        simp
      have hnex := (List.mem_filter.mp hemem).2
      simp at hnex
      exact hnex hex
  · intro fuel scheduled m hre hmin
    obtain ⟨hmem, hle⟩ := minNodeBy_spec hmin
    have hmfr : m ∈ availableNodes g scheduled := (List.mem_filter.mp hmem).1
    have hmex : m ∈ excl := by simpa using (List.mem_filter.mp hmem).2
    refine ⟨batchesGo_succ_min g excl fuel scheduled m hre hmin, hmfr, hmex, ?_⟩
    intro x hx
    by_cases hxe : x ∈ excl
    · exact hle x (List.mem_filter.mpr ⟨hx, by simpa using hxe⟩)
    · exfalso
      have hxr : x ∈ (availableNodes g scheduled).filter (fun n => decide (n ∉ excl)) :=
        List.mem_filter.mpr ⟨hx, by simpa using hxe⟩
      rw [List.isEmpty_iff] at hre
      rw [hre] at hxr
      simp at hxr
  · intro g2 excl2 hexcl hfree hinj
    have hacy2 : ¬ HasCycle g2 := by
      rintro ⟨n, hn⟩
      obtain ⟨p, hp, _⟩ := selfloop_step hn
      rw [hfree] at hp
      simp at hp
    obtain ⟨hsing, hpw⟩ := batchesGo_allexcl g2 excl2 hexcl hfree hinj (nodesOf g2).length []
    obtain ⟨hnd, hmem⟩ := batchesGo_flatten_spec g2 excl2 (nodesOf g2).length []
    have hcov := batchesGo_coverage g2 excl2 hacy2 (nodesOf g2).length []
      (List.length_filter_le _ _)
    refine ⟨hsing, hpw, ?_⟩
    apply List.perm_of_nodup_nodup_toFinset_eq hnd (nodesOf_nodup g2)
    ext x
    simp only [List.mem_toFinset]
    constructor
    · intro hx
      exact (hmem x hx).1
    · intro hx
      exact hcov x hx (by simp)

theorem static_batches_exclusive_policy_witness :
    ∃ j, ∃ hj : j < (staticBatchesList exG [exB]).length,
      (staticBatchesList exG [exB]).get ⟨j, hj⟩ = [exB] ∧
      (((availableNodes exG []).filter (fun n => decide (n ∉ [exB]))).isEmpty = false →
        1 ≤ j) :=
  (static_batches_exclusive_policy exG [exB]
    (acyclic_of_kahnResidual_nil (by decide))).2.2.1 exB (by decide) (by decide)

theorem cycG_hasCycle : HasCycle cycG :=
  ⟨exA, Relation.TransGen.head (b := exB)
    (show exB ∈ prereqsOf cycG exA by decide)
    (Relation.TransGen.single (show exA ∈ prereqsOf cycG exB by decide))⟩

/-- C4: for the concrete graph a requires [b,c], b requires [c,d],
d requires [e], f requires [d], least-first incremental draining yields
the completion order [c, e, d, b, a, f]; static_batches() yields the
batch sets {c,e}, {d}, {b,f}, {a}; and after add(b, exclusive = true)
static_batches() yields {c,e}, {d}, {f}, {b}, {a}. -/
theorem end_to_end_scenario :
    drainLeast exG = [exC, exE, exD, exB, exA, exF] ∧
    (staticBatchesList exG []).map List.toFinset =
      [{exC, exE}, {exD}, {exB, exF}, {exA}] ∧
    ∃ s1, addOp (mkSorter exG) exB true = Except.ok s1 ∧
      ∃ bs, staticBatchesOp s1 = Except.ok bs ∧
        bs.map List.toFinset = [{exC, exE}, {exD}, {exF}, {exB}, {exA}] := by
  refine ⟨by decide, by decide, ?_⟩
  refine ⟨_, rfl, _, rfl, by decide⟩

/-- C5: build-node identity for equality, hashing and ordering is
exactly the pair (name, version): same-key nodes are equal, hash-equal
and unordered regardless of download origin and pre-built flag; the
ordering compares name first then version and is a strict total order
consistent with that equality; and comparing a node against a value of
an unrelated type never yields equality. -/
theorem dependencynode_identity :
    (∀ a b : DependencyNode, a.canonicalized_name = b.canonicalized_name →
      a.version = b.version →
      a.eqB b = true ∧ a.hashKey = b.hashKey ∧ a.ltB b = false ∧ b.ltB a = false) ∧
    (∀ a b : DependencyNode, a.eqB b = true ↔ a.nkey = b.nkey) ∧
    (∀ a b : DependencyNode, a.ltB b = true ↔
      (strLt a.canonicalized_name b.canonicalized_name = true ∨
        (a.canonicalized_name = b.canonicalized_name ∧
          Version.ltB a.version b.version = true))) ∧
    (∀ a b : DependencyNode, a.eqB b = true → a.hashKey = b.hashKey) ∧
    (∀ a : DependencyNode, a.ltB a = false) ∧
    (∀ a b c : DependencyNode, a.ltB b = true → b.ltB c = true → a.ltB c = true) ∧
    (∀ a b : DependencyNode, a.ltB b = true → b.ltB a = false) ∧
    (∀ a b : DependencyNode, a.ltB b = false → b.ltB a = false → a.eqB b = true) ∧
    (∀ (a : DependencyNode) (s : String), a.eqValueB (.other s) = false) := by
  have hkey : ∀ a b : DependencyNode, a.canonicalized_name = b.canonicalized_name →
      a.version = b.version → a.nkey = b.nkey := by
    intro a b h1 h2
    simp [DependencyNode.nkey, h1, h2]
  have heq : ∀ a b : DependencyNode, a.eqB b = true ↔ a.nkey = b.nkey := by
    intro a b
    simp [DependencyNode.eqB, DependencyNode.nkey, Prod.ext_iff]
  refine ⟨?_, heq, ?_, ?_, ?_, ?_, ?_, ?_, ?_⟩
  · intro a b h1 h2
    refine ⟨(heq a b).mpr (hkey a b h1 h2), ?_, ?_, ?_⟩
    · simp [DependencyNode.hashKey, h1, h2]
    · exact DependencyNode.ltB_of_key_eq (hkey a b h1 h2)
    · exact DependencyNode.ltB_of_key_eq (hkey b a h1.symm h2.symm)
  · intro a b
    exact DependencyNode.ltB_iff
  · intro a b hab
    have hk := (heq a b).mp hab
    simp [DependencyNode.hashKey]
    exact ⟨congrArg Prod.fst hk, congrArg Prod.snd hk⟩
  · intro a
    exact DependencyNode.ltB_of_key_eq rfl
  · intro a b c
    exact DependencyNode.ltB_trans
  · intro a b
    exact DependencyNode.ltB_asymm
  · intro a b h1 h2
    exact (heq a b).mpr (DependencyNode.key_eq_of_not_ltB h1 h2)
  · intro a s
    rfl

theorem dependencynode_identity_witness :
    (⟨"a", ⟨1, 0⟩, "u1", false⟩ : DependencyNode).eqB ⟨"a", ⟨1, 0⟩, "u2", true⟩ = true ∧
    (⟨"a", ⟨1, 0⟩, "u1", false⟩ : DependencyNode).hashKey =
      (⟨"a", ⟨1, 0⟩, "u2", true⟩ : DependencyNode).hashKey ∧
    (⟨"a", ⟨1, 0⟩, "u1", false⟩ : DependencyNode).ltB ⟨"a", ⟨1, 0⟩, "u2", true⟩ = false ∧
    (⟨"a", ⟨1, 0⟩, "u2", true⟩ : DependencyNode).ltB ⟨"a", ⟨1, 0⟩, "u1", false⟩ = false :=
  dependencynode_identity.1 ⟨"a", ⟨1, 0⟩, "u1", false⟩ ⟨"a", ⟨1, 0⟩, "u2", true⟩ rfl rfl

/-- C6: on every graph containing a cycle, prepare() fails with a
CycleError carrying a non-empty set of offending nodes, and afterwards
the sorter is unusable: get_available, done, static_batches, add and a
second prepare all fail with errors instead of producing work. -/
theorem prepare_cycle_unusable (g : DepGraph) (hcy : HasCycle g) :
    (∃ cyc, cyc ≠ [] ∧ (prepareOp (mkSorter g)).1 = .error (.cycleError cyc)) ∧
    ((prepareOp (mkSorter g)).2.phase = .broken) ∧
    (getAvailableOp (prepareOp (mkSorter g)).2 = .error .stateError) ∧
    (∀ n, doneOp (prepareOp (mkSorter g)).2 n = .error .stateError) ∧
    (staticBatchesOp (prepareOp (mkSorter g)).2 = .error .stateError) ∧
    ((prepareOp (prepareOp (mkSorter g)).2).1 = .error .stateError) ∧
    (∀ n e, addOp (prepareOp (mkSorter g)).2 n e = .error .stateError) := by
  have hres := hasCycle_kahnResidual_ne_nil hcy
  have hprep : prepareOp (mkSorter g) =
      (.error (.cycleError (kahnResidual g)), { mkSorter g with phase := .broken }) := by
    unfold mkSorter prepareOp
    dsimp only
    rw [if_neg hres, if_pos rfl]
  refine ⟨⟨kahnResidual g, hres, by rw [hprep]⟩, by rw [hprep], ?_, ?_, ?_, ?_, ?_⟩
  · rw [hprep]
    unfold getAvailableOp
    rw [if_neg (by simp)]
  · intro n
    rw [hprep]
    unfold doneOp
    rw [if_neg (by simp)]
  · rw [hprep]
    unfold staticBatchesOp
    rw [if_pos rfl]
  · rw [hprep]
    unfold prepareOp
    rw [if_neg (by simp)]
  · intro n e
    rw [hprep]
    unfold addOp
    rw [if_neg (by simp)]

theorem prepare_cycle_unusable_witness :
    getAvailableOp (prepareOp (mkSorter cycG)).2 = .error .stateError :=
  (prepare_cycle_unusable cycG cycG_hasCycle).2.2.1

/-- C7: get_available() is observation-only: on an ACTIVE sorter it
returns the set of not-yet-done nodes whose prerequisites are all done,
together with an unchanged sorter, and a second consecutive call
returns the same set. -/
theorem get_available_pure (s : TrackingTopologicalSorter) (h : s.phase = .active) :
    getAvailableOp s = .ok (availableNodes s.graph s.doneNodes, s) ∧
    (∀ l s2, getAvailableOp s = .ok (l, s2) → s2 = s ∧ getAvailableOp s2 = .ok (l, s2)) ∧
    (∀ l s2, getAvailableOp s = .ok (l, s2) → ∀ n ∈ l, n ∉ s2.doneNodes ∧
      ∀ p ∈ prereqsOf s2.graph n, p ∈ s2.doneNodes) := by
  have hop : getAvailableOp s = .ok (availableNodes s.graph s.doneNodes, s) := by
    unfold getAvailableOp
    rw [if_pos h]
  refine ⟨hop, ?_, ?_⟩
  · intro l s2 h2
    rw [hop, Except.ok.injEq, Prod.mk.injEq] at h2
    obtain ⟨hl, hs⟩ := h2
    subst hs
    exact ⟨rfl, by rw [hop, hl]⟩
  · intro l s2 h2
    rw [hop, Except.ok.injEq, Prod.mk.injEq] at h2
    obtain ⟨hl, hs⟩ := h2
    subst hs
    intro n hn
    rw [← hl] at hn
    have hmm := mem_availableNodes.mp hn
    exact ⟨hmm.2.1, hmm.2.2⟩

theorem get_available_pure_witness :
    getAvailableOp ⟨exG, [], [], .active⟩ =
      .ok (availableNodes exG [], ⟨exG, [], [], .active⟩) :=
  (get_available_pure ⟨exG, [], [], .active⟩ rfl).1

/-- C8: dependency_nodes is exactly the union over all graph entries of
their prerequisite collections: membership holds iff some entry lists
the node as a prerequisite, so a key of the graph that occurs in no
other node's prerequisite collection is not a member; the result is a
duplicate-free value computed from the graph alone. -/
theorem dependency_nodes_spec (g : DepGraph) :
    (dependencyNodes g).Nodup ∧
    (∀ n, n ∈ dependencyNodes g ↔ ∃ entry ∈ g, n ∈ entry.2) ∧
    (∀ k deps, (k, deps) ∈ g → (∀ entry ∈ g, k ∉ entry.2) →
      k ∉ dependencyNodes g) := by
  have hiff : ∀ n, n ∈ dependencyNodes g ↔ ∃ entry ∈ g, n ∈ entry.2 := by
    intro n
    simp [dependencyNodes, List.mem_dedup, List.mem_flatMap]
  refine ⟨List.nodup_dedup _, hiff, ?_⟩
  intro k deps _ hnone hk
  obtain ⟨entry, hentry, hmem⟩ := (hiff k).mp hk
  exact hnone entry hentry hmem

theorem dependency_nodes_spec_witness : exA ∉ dependencyNodes exG :=
  (dependency_nodes_spec exG).2.2 exA [exB, exC] (by decide) (by decide)

/-- C9: build nodes are immutable once constructed — every attempted
field assignment fails with the frozen-instance error, so no modified
node is ever produced; the ResolvedRequirement setters for name, url,
extras and marker likewise raise TypeError. -/
theorem node_immutability :
    (∀ (n : DependencyNode) (v : String),
      n.set_canonicalized_name v = .error .frozenInstanceError) ∧
    (∀ (n : DependencyNode) (v : Version),
      n.set_version v = .error .frozenInstanceError) ∧
    (∀ (n : DependencyNode) (v : String),
      n.set_download_url v = .error .frozenInstanceError) ∧
    (∀ (n : DependencyNode) (v : Bool),
      n.set_pre_built v = .error .frozenInstanceError) ∧
    (∀ (n : DependencyNode) (v : Version) (n2 : DependencyNode),
      n.set_version v = .ok n2 → False) ∧
    (∀ (r : ResolvedRequirement) (v : String), r.set_name v = .error .typeError) ∧
    (∀ (r : ResolvedRequirement) (v : Option String), r.set_url v = .error .typeError) ∧
    (∀ (r : ResolvedRequirement) (v : List String), r.set_extras v = .error .typeError) ∧
    (∀ (r : ResolvedRequirement) (v : Option String), r.set_marker v = .error .typeError) := by
  refine ⟨fun _ _ => rfl, fun _ _ => rfl, fun _ _ => rfl, fun _ _ => rfl, ?_,
    fun _ _ => rfl, fun _ _ => rfl, fun _ _ => rfl, fun _ _ => rfl⟩
  intro n v n2 h
  simp [DependencyNode.set_version] at h

theorem node_immutability_witness :
    exA.set_version ⟨2, 0⟩ = .error .frozenInstanceError :=
  node_immutability.2.1 exA ⟨2, 0⟩

/-- C10: ResolvedRequirement equality compares the full underlying
requirement together with the version, while the strict order compares
only the pair (canonical_name, version); hence two values with the same
canonical name and version but different specifiers are unequal yet
neither is less than the other — the ordering is not a total order
consistent with equality. -/
theorem resolved_requirement_order_mismatch :
    (∀ a b : ResolvedRequirement, a.eqB b = true ↔ a.req = b.req ∧ a.version = b.version) ∧
    (∀ a b : ResolvedRequirement, a.ltB b = true ↔
      (strLt a.canonical_name b.canonical_name = true ∨
        (a.canonical_name = b.canonical_name ∧ Version.ltB a.version b.version = true))) ∧
    ∃ r1 r2 : ResolvedRequirement,
      r1.canonical_name = r2.canonical_name ∧ r1.version = r2.version ∧
      r1.eqB r2 = false ∧ r1.ltB r2 = false ∧ r2.ltB r1 = false := by
  refine ⟨?_, ?_, ?_⟩
  · intro a b
    simp [ResolvedRequirement.eqB]
  · intro a b
    simp [ResolvedRequirement.ltB, Bool.or_eq_true, Bool.and_eq_true]
  · refine ⟨⟨⟨"a", none, [], ">1.0", none⟩, ⟨1, 0⟩⟩,
      ⟨⟨"a", none, [], ">=1.0", none⟩, ⟨1, 0⟩⟩, ?_, rfl, ?_, ?_, ?_⟩
    · decide
    · decide
    · decide
    · decide

theorem resolved_requirement_order_mismatch_witness :
    (⟨⟨"a", none, [], ">1.0", none⟩, ⟨1, 0⟩⟩ : ResolvedRequirement).eqB
      ⟨⟨"a", none, [], ">1.0", none⟩, ⟨1, 0⟩⟩ = true :=
  (resolved_requirement_order_mismatch.1 ⟨⟨"a", none, [], ">1.0", none⟩, ⟨1, 0⟩⟩
    ⟨⟨"a", none, [], ">1.0", none⟩, ⟨1, 0⟩⟩).mpr ⟨rfl, rfl⟩

end Fromager
